import Mathlib

/-!
Verification of the Secure-Email-Validator core pipeline
(`internal/checker/email_checker.go`).

Go strings are modelled as lists of Unicode code points (`List Nat`).
`strings.Split` with a one-character separator, `strings.TrimSpace`,
`strings.ToLower` / `ToUpper` (on the ASCII range, which is all the
pipeline's own string constants and character classes use),
`strings.ReplaceAll(s, ".", "")`, truncation at the first `+`, and
`strings.Contains` are embedded as the list functions below.  The three
network probes (`net.LookupMX`, the external `dig` invocation, and the
SMTP STARTTLS handshake) are modelled as oracles supplied through a
`ProbeEnv`; a failed invocation is `none`.  `ValidateEmailT` additionally
records the trace of probe invocations so that short-circuit claims can
be stated.
-/

/-- Go strings as lists of code points. -/
abbrev GoStr := List Nat

/-- Code points of a Lean string literal, for writing concrete Go strings. -/
def strE (s : String) : GoStr := s.toList.map Char.toNat

/-- Code point of `@`. -/
def atSign : Nat := 64

/-- Code point of `.`. -/
def dotChar : Nat := 46

/-- Code point of `+`. -/
def plusChar : Nat := 43

/-- Go `unicode.IsSpace` on a code point (the white-space set of Go:
ASCII space characters plus NEL, NBSP and the Unicode space separators). -/
def goIsSpace (n : Nat) : Bool :=
  decide (n = 32 ∨ n = 9 ∨ n = 10 ∨ n = 11 ∨ n = 12 ∨ n = 13 ∨ n = 133 ∨ n = 160 ∨
    n = 0x1680 ∨ (0x2000 ≤ n ∧ n ≤ 0x200A) ∨ n = 0x2028 ∨ n = 0x2029 ∨
    n = 0x202F ∨ n = 0x205F ∨ n = 0x3000)

/-- Go `strings.ToLower` on one code point (ASCII simple mapping). -/
def goToLower (n : Nat) : Nat := if 65 ≤ n ∧ n ≤ 90 then n + 32 else n

/-- Go `strings.ToUpper` on one code point (ASCII simple mapping). -/
def goToUpper (n : Nat) : Nat := if 97 ≤ n ∧ n ≤ 122 then n - 32 else n

/-- Go `strings.TrimSpace`: drop white space from both ends. -/
def trimSpace (s : GoStr) : GoStr :=
  ((s.dropWhile goIsSpace).reverse.dropWhile goIsSpace).reverse

/-- Go `strings.Split(s, sep)` for a one-character separator `sep`. -/
def splitOn (sep : Nat) : GoStr → List GoStr
  | [] => [[]]
  | c :: rest =>
    if c = sep then [] :: splitOn sep rest
    else
      match splitOn sep rest with
      | [] => [[c]]
      | p :: ps => (c :: p) :: ps

/-- Go `strings.ReplaceAll(s, ".", "")`: delete every dot. -/
def removeDots (s : GoStr) : GoStr := s.filter (fun c => decide (¬ c = dotChar))

/-- Go `local[:strings.Index(local, "+")]` when a `+` occurs, else `local`:
truncate at the first plus. -/
def truncAtPlus (s : GoStr) : GoStr := s.takeWhile (fun c => decide (¬ c = plusChar))

/-- Go `strings.Contains(s, pat)` (pattern given first here). -/
def containsSub (pat : GoStr) : GoStr → Bool
  | [] => pat.isEmpty
  | c :: rest => pat.isPrefixOf (c :: rest) || containsSub pat rest

/-- Embeds `normalizeEmail` of `internal/checker/email_checker.go`:
lower-case the trimmed input, and if it splits at `@` into exactly two
parts whose domain is `gmail.com` or `googlemail.com`, delete the dots of
the local part, truncate it at the first `+`, and rewrite the domain to
`gmail.com`. -/
def normalizeEmail (email : GoStr) : GoStr :=
  let e := (trimSpace email).map goToLower
  match splitOn atSign e with
  | [lcl, domain] =>
    if domain = strE "gmail.com" ∨ domain = strE "googlemail.com" then
      truncAtPlus (removeDots lcl) ++ atSign :: strE "gmail.com"
    else lcl ++ atSign :: domain
  | _ => e

/-- Embeds `extractDomain`: the lower-cased, trimmed second `@`-part when
the split has exactly two parts, else the empty string. -/
def extractDomain (email : GoStr) : GoStr :=
  match splitOn atSign email with
  | [_, domain] => (trimSpace domain).map goToLower
  | _ => []

/-- ASCII letter (the regex ranges `a-zA-Z`). -/
def isAsciiAlpha (n : Nat) : Bool := decide ((65 ≤ n ∧ n ≤ 90) ∨ (97 ≤ n ∧ n ≤ 122))

/-- ASCII digit (the regex range `0-9`). -/
def isAsciiDigit (n : Nat) : Bool := decide (48 ≤ n ∧ n ≤ 57)

/-- Alphanumeric character of the regex. -/
def isAlnum (n : Nat) : Bool := isAsciiAlpha n || isAsciiDigit n

/-- The local-part character class of the regex in `isValidEmailFormat`:
alphanumerics and `. ! # $ % & ' * + / = ? ^ _ \x60 \x7b | \x7d ~ -`
(written as code points). -/
def isLocalChar (n : Nat) : Bool :=
  isAlnum n || decide (n = 46 ∨ n = 33 ∨ n = 35 ∨ n = 36 ∨ n = 37 ∨ n = 38 ∨
    n = 39 ∨ n = 42 ∨ n = 43 ∨ n = 47 ∨ n = 61 ∨ n = 63 ∨ n = 94 ∨ n = 95 ∨
    n = 96 ∨ n = 123 ∨ n = 124 ∨ n = 125 ∨ n = 126 ∨ n = 45)

/-- Domain-label character of the regex: alphanumeric or hyphen. -/
def isLabelChar (n : Nat) : Bool := isAlnum n || decide (n = 45)

/-- The language of the regex fragment
`[a-zA-Z0-9](?:[a-zA-Z0-9-]\x7b0,61\x7d[a-zA-Z0-9])?`: a word of 1 to 63
label characters whose first and last characters are alphanumeric. -/
def isLabel (l : GoStr) : Bool :=
  match l.head?, l.getLast? with
  | some c0, some c1 =>
    isAlnum c0 && isAlnum c1 && decide (l.length ≤ 63) && l.all isLabelChar
  | _, _ => false

/-- The language of the regex's domain part `label(\.label)*`: splitting at
the dots yields valid labels only (and in particular no empty label, so no
leading, trailing or doubled dot). -/
def isValidDomain (d : GoStr) : Bool := (splitOn dotChar d).all isLabel

/-- The language of the anchored regex of `isValidEmailFormat`: since
neither character class contains `@`, a match is exactly a two-part split
at `@` whose non-empty local part lies in the local class and whose domain
part is in the domain language. -/
def matchesEmailRegex (s : GoStr) : Bool :=
  match splitOn atSign s with
  | [lcl, domain] => !lcl.isEmpty && lcl.all isLocalChar && isValidDomain domain
  | _ => false

/-- Embeds `isValidEmailFormat`: the regex match plus the length bound 254
(the regex only matches ASCII, so byte length and code-point length agree
on every matching string). -/
def isValidEmailFormat (email : GoStr) : Bool :=
  matchesEmailRegex email && decide (email.length ≤ 254)

/-- One `net.MX` record: host and preference. -/
structure MXRec where
  host : GoStr
  pref : Nat
deriving DecidableEq, Repr

/-- Embeds the selection loop of `getPrimaryMXServer`: keep the current
record only while no record with a strictly smaller preference appears. -/
def selectPrimary (records : List MXRec) : Option MXRec :=
  records.foldl
    (fun acc mx =>
      match acc with
      | none => some mx
      | some p => if mx.pref < p.pref then some mx else some p)
    none

/-- Embeds the trailing-dot strip of `getPrimaryMXServer`: remove one
trailing `.` when present. -/
def stripTrailingDot (h : GoStr) : GoStr :=
  if h.getLast? = some dotChar then h.dropLast else h

/-- Embeds `getPrimaryMXServer`, abstracted over the outcome of its own
`net.LookupMX` call (`none` models a lookup error). -/
def getPrimaryMXServer (lookup : Option (List MXRec)) : GoStr :=
  match lookup with
  | none => []
  | some records =>
    if records.isEmpty then []
    else
      match selectPrimary records with
      | some p => stripTrailingDot p.host
      | none => []

/-- Embeds `hasMXRecord`, abstracted over the outcome of its
`net.LookupMX` call: an error or an empty record list yields `false`. -/
def hasMXRecord (lookup : Option (List MXRec)) : Bool :=
  match lookup with
  | none => false
  | some records => decide (records.length > 0)

/-- Embeds `hasDNSSEC`, abstracted over the textual output of the external
`dig +dnssec +short SOA` invocation (`none` models an invocation error):
true when the output contains `RRSIG`, or its upper-cased form does. -/
def hasDNSSEC (digOut : Option GoStr) : Bool :=
  match digOut with
  | none => false
  | some out =>
    containsSub (strE "RRSIG") out || containsSub (strE "RRSIG") (out.map goToUpper)

/-- The behaviours of the network probes during one validation:
`mxLookup` is the `net.LookupMX` invocation made by `hasMXRecord`,
`mxLookup2` the separate one made by `getPrimaryMXServer`, `digOutput`
the external dig invocation, and `starttls` the outcome of the SMTP
STARTTLS probe for a server. -/
structure ProbeEnv where
  mxLookup : GoStr → Option (List MXRec)
  mxLookup2 : GoStr → Option (List MXRec)
  digOutput : GoStr → Option GoStr
  starttls : GoStr → Bool

/-- A network-probe invocation, for recording the pipeline's trace. -/
inductive Probe where
  | mx (domain : GoStr)
  | mx2 (domain : GoStr)
  | digSOA (domain : GoStr)
  | smtp (server : GoStr)
deriving DecidableEq, Repr

/-- The `ValidationResult` struct; defaults are Go's zero values. -/
structure ValidationResult where
  Valid : Bool := false
  Reason : GoStr := []
  NormalizedEmail : GoStr := []
  Domain : GoStr := []
  HasMXRecord : Bool := false
  HasDNSSEC : Bool := false
  PrimaryMXServer : GoStr := []
  SupportsSTARTTLS : Bool := false
deriving DecidableEq, Repr

/-- Reason string of the failing format stage. -/
def reasonInvalidFormat : GoStr := strE "Invalid email format"

/-- Reason string of the failing MX stage. -/
def reasonNoMX : GoStr := strE "Domain doesn" ++ 39 :: strE "t have MX record"

/-- Reason string of the failing DNSSEC stage. -/
def reasonNoDNSSEC : GoStr := strE "Domain doesn" ++ 39 :: strE "t support DNSSEC"

/-- Reason string of the failing primary-MX stage. -/
def reasonNoMXServer : GoStr := strE "Failed to get MX server"

/-- Reason string of the failing STARTTLS stage. -/
def reasonNoSTARTTLS : GoStr := strE "SMTP server doesn" ++ 39 :: strE "t support STARTTLS"

/-- Reason string of a fully successful validation. -/
def reasonValid : GoStr := strE "Email is valid and domain supports secure mail delivery"

/-- Embeds `ValidateEmail`, additionally returning the ordered trace of
network-probe invocations the run performs. -/
def ValidateEmailT (env : ProbeEnv) (email : GoStr) : ValidationResult × List Probe :=
  if isValidEmailFormat email = false then
    ({ Valid := false, Reason := reasonInvalidFormat, NormalizedEmail := email }, [])
  else
    let normalized := normalizeEmail email
    let dom := extractDomain normalized
    let mxOK := hasMXRecord (env.mxLookup dom)
    if mxOK = false then
      ({ Valid := false, Reason := reasonNoMX, NormalizedEmail := normalized,
         Domain := dom, HasMXRecord := mxOK }, [Probe.mx dom])
    else
      let dnssecOK := hasDNSSEC (env.digOutput dom)
      if dnssecOK = false then
        ({ Valid := false, Reason := reasonNoDNSSEC, NormalizedEmail := normalized,
           Domain := dom, HasMXRecord := mxOK, HasDNSSEC := dnssecOK },
         [Probe.mx dom, Probe.digSOA dom])
      else
        let primary := getPrimaryMXServer (env.mxLookup2 dom)
        if primary = [] then
          ({ Valid := false, Reason := reasonNoMXServer, NormalizedEmail := normalized,
             Domain := dom, HasMXRecord := mxOK, HasDNSSEC := dnssecOK,
             PrimaryMXServer := primary },
           [Probe.mx dom, Probe.digSOA dom, Probe.mx2 dom])
        else
          let tls := env.starttls primary
          if tls = false then
            ({ Valid := false, Reason := reasonNoSTARTTLS, NormalizedEmail := normalized,
               Domain := dom, HasMXRecord := mxOK, HasDNSSEC := dnssecOK,
               PrimaryMXServer := primary, SupportsSTARTTLS := tls },
             [Probe.mx dom, Probe.digSOA dom, Probe.mx2 dom, Probe.smtp primary])
          else
            ({ Valid := true, Reason := reasonValid, NormalizedEmail := normalized,
               Domain := dom, HasMXRecord := mxOK, HasDNSSEC := dnssecOK,
               PrimaryMXServer := primary, SupportsSTARTTLS := tls },
             [Probe.mx dom, Probe.digSOA dom, Probe.mx2 dom, Probe.smtp primary])

/-- Embeds `ValidateEmail`: the result part of the traced run. -/
def ValidateEmail (env : ProbeEnv) (email : GoStr) : ValidationResult :=
  (ValidateEmailT env email).1

/-- Joining word lists with a one-character separator; the inverse of
`splitOn` used to state the domain grammar. -/
def joinSep (sep : Nat) : List GoStr → GoStr
  | [] => []
  | [l] => l
  | l :: l2 :: ls => l ++ sep :: joinSep sep (l2 :: ls)

/-- The normalization C4 describes, written from the claim's words: trim
and lower-case; when exactly two at-parts exist and the domain is
`gmail.com` or `googlemail.com`, delete every dot of the local part,
truncate it at the first plus and rewrite the domain to `gmail.com`;
every other address is exactly the trimmed lower-cased input, with no
local-part rewriting. -/
def normalizeEmailDescribed (A : GoStr) : GoStr :=
  let t := (trimSpace A).map goToLower
  match splitOn atSign t with
  | [lcl, domain] =>
    if domain = strE "gmail.com" ∨ domain = strE "googlemail.com" then
      truncAtPlus (removeDots lcl) ++ atSign :: strE "gmail.com"
    else t
  | _ => t

/-- A domain label as C5 words it: 1 to 63 characters, alphanumeric with
internal hyphens only (first and last character alphanumeric). -/
def LabelSpec (l : GoStr) : Prop :=
  1 ≤ l.length ∧ l.length ≤ 63 ∧ (∀ c ∈ l, isLabelChar c = true) ∧
  (∀ c, l.head? = some c → isAlnum c = true) ∧
  (∀ c, l.getLast? = some c → isAlnum c = true)

/-- The structural pattern C5 words: a non-empty local part from the
allowed class, exactly one `@` (forced because neither class contains
`@`), and a domain that joins a non-empty list of valid labels with dots
(hence no leading or trailing dot). -/
def EmailPatternSpec (s : GoStr) : Prop :=
  ∃ lcl labels, lcl ≠ [] ∧ (∀ c ∈ lcl, isLocalChar c = true) ∧
    labels ≠ [] ∧ (∀ l ∈ labels, LabelSpec l) ∧
    s = lcl ++ atSign :: joinSep dotChar labels

/-- Case-insensitive containment of the marker `RRSIG`, as C7 words it:
some segment of the output upper-cases to `RRSIG`. -/
def ContainsRRSIGInsensitive (s : GoStr) : Prop :=
  ∃ pre mid post, s = pre ++ mid ++ post ∧ mid.map goToUpper = strE "RRSIG"

/-- Recursive form of the selection loop of `getPrimaryMXServer`: the
running best record against the remaining records. -/
def firstMinFrom (p : MXRec) : List MXRec → MXRec
  | [] => p
  | mx :: rest => if mx.pref < p.pref then firstMinFrom mx rest else firstMinFrom p rest

/-- The first failing stage's reason in the claims' sense: the five
stages in pipeline order, each with its reason string. -/
def firstFailReason (env : ProbeEnv) (email : GoStr) : GoStr :=
  if isValidEmailFormat email = false then reasonInvalidFormat
  else
    let dom := extractDomain (normalizeEmail email)
    if hasMXRecord (env.mxLookup dom) = false then reasonNoMX
    else if hasDNSSEC (env.digOutput dom) = false then reasonNoDNSSEC
    else if getPrimaryMXServer (env.mxLookup2 dom) = [] then reasonNoMXServer
    else if env.starttls (getPrimaryMXServer (env.mxLookup2 dom)) = false then reasonNoSTARTTLS
    else reasonValid

/-- A probe environment in which every probe succeeds, for witnesses. -/
def envAllOK : ProbeEnv :=
  { mxLookup := fun _ => some [⟨strE "mail.example.com.", 10⟩]
    mxLookup2 := fun _ => some [⟨strE "mail.example.com.", 10⟩]
    digOutput := fun _ => some (strE "ns1.example.com. hostmaster.example.com. RRSIG 3600")
    starttls := fun _ => true }

/-- A concrete MX record list for witnesses: the minimum preference 10 is
attained first by the second record. -/
def mxRecordsW : List MXRec :=
  [⟨strE "mail2.example.com.", 20⟩, ⟨strE "mail1.example.com.", 10⟩,
   ⟨strE "mail3.example.com", 10⟩]

/-- A probe environment in which every MX lookup errors, for witnesses. -/
def envNoMX : ProbeEnv :=
  { mxLookup := fun _ => none
    mxLookup2 := fun _ => none
    digOutput := fun _ => none
    starttls := fun _ => false }


/-! Basic lemmas about the string model. -/

theorem goToLower_goToLower (n : Nat) : goToLower (goToLower n) = goToLower n := by
  simp only [goToLower]
  split_ifs <;> omega

theorem goIsSpace_goToLower (n : Nat) : goIsSpace (goToLower n) = goIsSpace n := by
  simp only [goToLower, goIsSpace]
  split_ifs with h
  · rw [decide_eq_decide]
    omega
  · rfl

theorem goToLower_eq_atSign {n : Nat} : goToLower n = atSign ↔ n = atSign := by
  simp only [goToLower, atSign]
  split_ifs <;> omega

theorem goToLower_eq_dotChar {n : Nat} : goToLower n = dotChar ↔ n = dotChar := by
  simp only [goToLower, dotChar]
  split_ifs <;> omega

theorem splitOn_ne_nil (sep : Nat) (s : GoStr) : splitOn sep s ≠ [] := by
  induction s with
  | nil => simp [splitOn]
  | cons c rest ih =>
    simp only [splitOn]
    by_cases hc : c = sep
    · simp [hc]
    · cases hsp : splitOn sep rest with
      | nil => simp [hc, hsp]
      | cons p ps => simp [hc, hsp]

theorem splitOn_of_not_mem {sep : Nat} {s : GoStr} (h : sep ∉ s) : splitOn sep s = [s] := by
  induction s with
  | nil => rfl
  | cons c rest ih =>
    have hc : ¬ c = sep := fun hcs => h (hcs ▸ List.mem_cons_self c rest)
    have hr : sep ∉ rest := fun hm => h (List.mem_cons_of_mem _ hm)
    simp [splitOn, hc, ih hr]

theorem splitOn_append_cons {sep : Nat} {a : GoStr} (ha : sep ∉ a) (b : GoStr) :
    splitOn sep (a ++ sep :: b) = a :: splitOn sep b := by
  induction a with
  | nil => simp [splitOn]
  | cons c rest ih =>
    have hc : ¬ c = sep := fun hcs => ha (hcs ▸ List.mem_cons_self c rest)
    have hr : sep ∉ rest := fun hm => ha (List.mem_cons_of_mem _ hm)
    simp [splitOn, hc, ih hr]

theorem splitOn_eq_single {sep : Nat} {s x : GoStr} (h : splitOn sep s = [x]) :
    s = x ∧ sep ∉ s := by
  induction s generalizing x with
  | nil =>
    simp only [splitOn] at h
    refine ⟨by simpa using (List.cons.injEq _ _ _ _ ▸ h).1.symm, by simp⟩
  | cons c rest ih =>
    by_cases hc : c = sep
    · subst hc
      simp only [splitOn, if_pos rfl] at h
      exact absurd (List.cons.injEq _ _ _ _ ▸ h).2 (splitOn_ne_nil _ _)
    · simp only [splitOn, if_neg hc] at h
      cases hsp : splitOn sep rest with
      | nil => exact absurd hsp (splitOn_ne_nil _ _)
      | cons p ps =>
        rw [hsp] at h
        have hx : x = c :: p ∧ ps = [] := by
          have := (List.cons.injEq _ _ _ _ ▸ h)
          exact ⟨this.1.symm, this.2⟩
        obtain ⟨hx1, hx2⟩ := hx
        subst hx2
        obtain ⟨hrest, hnm⟩ := ih hsp
        subst hrest
        refine ⟨by rw [hx1], ?_⟩
        intro hmem
        rcases List.mem_cons.mp hmem with h1 | h1
        · exact hc h1.symm
        · exact hnm h1

theorem splitOn_eq_pair {sep : Nat} {s a b : GoStr} :
    splitOn sep s = [a, b] ↔ s = a ++ sep :: b ∧ sep ∉ a ∧ sep ∉ b := by
  constructor
  · intro h
    induction s generalizing a with
    | nil => simp [splitOn] at h
    | cons c rest ih =>
      by_cases hc : c = sep
      · subst hc
        simp only [splitOn, if_pos rfl] at h
        have ha : a = [] := ((List.cons.injEq _ _ _ _ ▸ h).1).symm
        have hb : splitOn c rest = [b] := (List.cons.injEq _ _ _ _ ▸ h).2
        obtain ⟨hrb, hnb⟩ := splitOn_eq_single hb
        subst hrb
        exact ⟨by simp [ha], by simp [ha], hnb⟩
      · simp only [splitOn, if_neg hc] at h
        cases hsp : splitOn sep rest with
        | nil => exact absurd hsp (splitOn_ne_nil _ _)
        | cons p ps =>
          rw [hsp] at h
          have h1 := (List.cons.injEq _ _ _ _ ▸ h)
          have hap : a = c :: p := h1.1.symm
          have hps : ps = [b] := h1.2
          subst hps
          obtain ⟨hre, hp, hb⟩ := ih hsp
          subst hre
          refine ⟨by simp [hap], ?_, hb⟩
          subst hap
          intro hmem
          rcases List.mem_cons.mp hmem with h2 | h2
          · exact hc h2.symm
          · exact hp h2
  · rintro ⟨rfl, ha, hb⟩
    rw [splitOn_append_cons ha, splitOn_of_not_mem hb]

theorem joinSep_splitOn (sep : Nat) (s : GoStr) : joinSep sep (splitOn sep s) = s := by
  induction s with
  | nil => rfl
  | cons c rest ih =>
    by_cases hc : c = sep
    · subst hc
      simp only [splitOn, if_pos rfl]
      cases hsp : splitOn c rest with
      | nil => exact absurd hsp (splitOn_ne_nil _ _)
      | cons p ps =>
        rw [hsp] at ih
        simp [joinSep, ih]
    · simp only [splitOn, if_neg hc]
      cases hsp : splitOn sep rest with
      | nil => exact absurd hsp (splitOn_ne_nil _ _)
      | cons p ps =>
        rw [hsp] at ih
        cases ps with
        | nil => simpa [joinSep] using congrArg (c :: ·) ih
        | cons q qs =>
          simp only [joinSep] at ih ⊢
          rw [← ih]
          simp

theorem splitOn_joinSep {sep : Nat} {labels : List GoStr} (hne : labels ≠ [])
    (hnm : ∀ l ∈ labels, sep ∉ l) :
    splitOn sep (joinSep sep labels) = labels := by
  induction labels with
  | nil => exact absurd rfl hne
  | cons l ls ih =>
    cases ls with
    | nil => exact splitOn_of_not_mem (hnm l (List.mem_cons_self _ _))
    | cons l2 ls' =>
      have h1 : sep ∉ l := hnm l (List.mem_cons_self _ _)
      have h2 : ∀ x ∈ l2 :: ls', sep ∉ x := fun x hx => hnm x (List.mem_cons_of_mem _ hx)
      simp only [joinSep]
      rw [splitOn_append_cons h1, ih (by simp) h2]

theorem splitOn_length (sep : Nat) (s : GoStr) :
    (splitOn sep s).length = s.count sep + 1 := by
  induction s with
  | nil => simp [splitOn]
  | cons c rest ih =>
    by_cases hc : c = sep
    · subst hc
      simp [splitOn, List.count_cons, ih]
    · simp only [splitOn, if_neg hc]
      cases hsp : splitOn sep rest with
      | nil => exact absurd hsp (splitOn_ne_nil _ _)
      | cons p ps =>
        rw [hsp] at ih
        simp only [List.length_cons] at ih ⊢
        rw [List.count_cons]
        simp [hc, ih]

theorem dropWhile_eq_self_of_all {p : Nat → Bool} {s : GoStr}
    (h : ∀ c ∈ s, p c = false) : s.dropWhile p = s := by
  cases s with
  | nil => rfl
  | cons c rest => simp [List.dropWhile_cons, h c (List.mem_cons_self c rest)]

theorem trimSpace_eq_self {s : GoStr} (h : ∀ c ∈ s, goIsSpace c = false) :
    trimSpace s = s := by
  unfold trimSpace
  rw [dropWhile_eq_self_of_all h,
      dropWhile_eq_self_of_all (fun c hc => h c (List.mem_reverse.mp hc)),
      List.reverse_reverse]

theorem containsSub_iff {pat s : GoStr} :
    containsSub pat s = true ↔ ∃ pre post, s = pre ++ pat ++ post := by
  induction s with
  | nil =>
    simp only [containsSub, List.isEmpty_iff]
    constructor
    · rintro rfl
      exact ⟨[], [], rfl⟩
    · rintro ⟨pre, post, h⟩
      obtain ⟨h1, h2⟩ := List.append_eq_nil.mp h.symm
      exact (List.append_eq_nil.mp h1).2
  | cons c rest ih =>
    simp only [containsSub, Bool.or_eq_true, ih]
    constructor
    · rintro (hp | ⟨pre, post, rfl⟩)
      · obtain ⟨t, ht⟩ := List.isPrefixOf_iff_prefix.mp hp
        exact ⟨[], t, by simp [← ht]⟩
      · exact ⟨c :: pre, post, rfl⟩
    · rintro ⟨pre, post, h⟩
      cases pre with
      | nil =>
        left
        exact List.isPrefixOf_iff_prefix.mpr ⟨post, by simpa using h.symm⟩
      | cons d pre' =>
        right
        have h1 := List.cons.injEq c rest d (pre' ++ pat ++ post) ▸ h
        exact ⟨pre', post, h1.2⟩

/-- C7: hasDNSSEC returns true if and only if the external dig invocation
succeeds and its textual output contains the marker RRSIG
case-insensitively; any invocation error yields false, indistinguishable
from DNSSEC absence. -/
theorem claim_C7 :
    hasDNSSEC none = false ∧
    ∀ out, hasDNSSEC (some out) = true ↔ ContainsRRSIGInsensitive out := by
  refine ⟨rfl, fun out => ?_⟩
  simp only [hasDNSSEC, Bool.or_eq_true]
  constructor
  · rintro (h | h)
    · obtain ⟨pre, post, rfl⟩ := containsSub_iff.mp h
      exact ⟨pre, strE "RRSIG", post, rfl, by decide⟩
    · obtain ⟨pre', post', hmap⟩ := containsSub_iff.mp h
      rw [List.map_eq_append_iff] at hmap
      obtain ⟨l₁, l₂, rfl, h₁, h₂⟩ := hmap
      rw [List.map_eq_append_iff] at h₁
      obtain ⟨m₁, m₂, rfl, hm₁, hm₂⟩ := h₁
      exact ⟨m₁, m₂, l₂, rfl, hm₂⟩
  · rintro ⟨pre, mid, post, rfl, hmid⟩
    right
    exact containsSub_iff.mpr ⟨pre.map goToUpper, post.map goToUpper, by simp [hmid]⟩

/-- Witness for C7 at a concrete dig output containing lower-case rrsig. -/
theorem claim_C7_witness : ContainsRRSIGInsensitive (strE "example.com. 3600 in rrsig soa 13") :=
  (claim_C7.2 _).mp (by decide)

/-- C8: extractDomain splits the address at the at sign and returns the
second part lower-cased and trimmed when exactly one at sign is present
(equivalently, when the split has exactly two parts), and returns the
empty string otherwise; with the three concrete evaluations the claim
lists. -/
theorem claim_C8 :
    (∀ e lcl d, splitOn atSign e = [lcl, d] →
      extractDomain e = (trimSpace d).map goToLower) ∧
    (∀ e, (splitOn atSign e).length ≠ 2 → extractDomain e = []) ∧
    (∀ e, e.count atSign = 1 ↔ (splitOn atSign e).length = 2) ∧
    extractDomain (strE "test@example.com") = strE "example.com" ∧
    extractDomain (strE "invalid-email") = [] ∧
    extractDomain (strE "test@") = [] := by
  refine ⟨?_, ?_, ?_, by decide, by decide, by decide⟩
  · intro e lcl d h
    simp [extractDomain, h]
  · intro e h
    cases hsp : splitOn atSign e with
    | nil => simp [extractDomain, hsp]
    | cons a tl =>
      cases tl with
      | nil => simp [extractDomain, hsp]
      | cons b tl2 =>
        cases tl2 with
        | nil => exact absurd (by rw [hsp]; rfl) h
        | cons f tl3 => simp [extractDomain, hsp]
  · intro e
    rw [splitOn_length]
    omega

/-- Witness for C8 at a concrete two-part address with upper-case domain. -/
theorem claim_C8_witness :
    extractDomain (strE "User@ExAmple.Org") = (trimSpace (strE "ExAmple.Org")).map goToLower :=
  claim_C8.1 _ (strE "User") (strE "ExAmple.Org") (by decide)

/-- C10: when the format check fails, ValidateEmail returns the raw input
as NormalizedEmail (no trimming, lower-casing or Gmail folding), Valid is
false with the format reason, and every other field keeps its zero
value. -/
theorem claim_C10 (env : ProbeEnv) (email : GoStr)
    (h : isValidEmailFormat email = false) :
    (ValidateEmail env email).NormalizedEmail = email ∧
    (ValidateEmail env email).Valid = false ∧
    (ValidateEmail env email).Reason = reasonInvalidFormat ∧
    (ValidateEmail env email).Domain = [] ∧
    (ValidateEmail env email).HasMXRecord = false ∧
    (ValidateEmail env email).HasDNSSEC = false ∧
    (ValidateEmail env email).PrimaryMXServer = [] ∧
    (ValidateEmail env email).SupportsSTARTTLS = false := by
  simp [ValidateEmail, ValidateEmailT, h]

/-- Witness for C10 at the untrimmed upper-case input, whose raw form is
preserved verbatim in NormalizedEmail. -/
theorem claim_C10_witness :
    (ValidateEmail envAllOK (strE " Bad@@Mail ")).NormalizedEmail = strE " Bad@@Mail " ∧
    (ValidateEmail envAllOK (strE " Bad@@Mail ")).Valid = false ∧
    (ValidateEmail envAllOK (strE " Bad@@Mail ")).Reason = reasonInvalidFormat ∧
    (ValidateEmail envAllOK (strE " Bad@@Mail ")).Domain = [] ∧
    (ValidateEmail envAllOK (strE " Bad@@Mail ")).HasMXRecord = false ∧
    (ValidateEmail envAllOK (strE " Bad@@Mail ")).HasDNSSEC = false ∧
    (ValidateEmail envAllOK (strE " Bad@@Mail ")).PrimaryMXServer = [] ∧
    (ValidateEmail envAllOK (strE " Bad@@Mail ")).SupportsSTARTTLS = false :=
  claim_C10 envAllOK (strE " Bad@@Mail ") (by decide)

theorem normalizeEmail_eq_described (A : GoStr) :
    normalizeEmail A = normalizeEmailDescribed A := by
  simp only [normalizeEmail, normalizeEmailDescribed]
  cases hsp : splitOn atSign ((trimSpace A).map goToLower) with
  | nil => rfl
  | cons p ps =>
    cases ps with
    | nil => rfl
    | cons q qs =>
      cases qs with
      | nil =>
        obtain ⟨ht, -, -⟩ := splitOn_eq_pair.mp hsp
        by_cases hg : q = strE "gmail.com" ∨ q = strE "googlemail.com"
        · simp [hg]
        · simp [hg, ← ht]
      | cons r rs => rfl

/-- C4: normalizeEmail trims and lower-cases, applies Gmail-class
local-part rewriting (dot deletion, plus truncation, googlemail-to-gmail)
exactly when two at-parts exist with a Gmail-class domain, and returns
every other address as the trimmed lower-cased input unchanged; with the
concrete evaluations the claim lists. -/
theorem claim_C4 :
    (∀ A, normalizeEmail A = normalizeEmailDescribed A) ∧
    normalizeEmail (strE "te.st+tag@gmail.com") = strE "test@gmail.com" ∧
    normalizeEmail (strE "te.st+tag@googlemail.com") = strE "test@gmail.com" ∧
    normalizeEmail (strE "a.b+c@example.com") = strE "a.b+c@example.com" ∧
    normalizeEmail (strE " A.b+C@Example.Com ") = strE "a.b+c@example.com" :=
  ⟨normalizeEmail_eq_described, by decide, by decide, by decide, by decide⟩

theorem isLocalChar_ne_atSign {n : Nat} (h : isLocalChar n = true) : n ≠ atSign := by
  intro hn
  subst hn
  exact absurd h (by decide)

theorem isLabelChar_ne_atSign {n : Nat} (h : isLabelChar n = true) : n ≠ atSign := by
  intro hn
  subst hn
  exact absurd h (by decide)

theorem isLabelChar_ne_dotChar {n : Nat} (h : isLabelChar n = true) : n ≠ dotChar := by
  intro hn
  subst hn
  exact absurd h (by decide)

theorem isLabel_iff {l : GoStr} : isLabel l = true ↔ LabelSpec l := by
  cases l with
  | nil => simp [isLabel, LabelSpec]
  | cons c rest =>
    cases hl : (c :: rest).getLast? with
    | none => simp [List.getLast?_eq_none_iff] at hl
    | some c1 =>
      simp only [isLabel, List.head?_cons, hl, Bool.and_eq_true, decide_eq_true_eq,
        List.all_eq_true, LabelSpec]
      constructor
      · rintro ⟨⟨⟨h0, h1⟩, hlen⟩, hall⟩
        refine ⟨by simp, hlen, hall, ?_, ?_⟩
        · intro x hx
          obtain rfl : c = x := Option.some.inj hx
          exact h0
        · intro x hx
          obtain rfl : c1 = x := Option.some.inj hx
          exact h1
      · rintro ⟨-, hlen, hall, hh, hlast⟩
        exact ⟨⟨⟨hh c rfl, hlast c1 rfl⟩, hlen⟩, hall⟩

theorem mem_joinSep {sep x : Nat} {ls : List GoStr} (h : x ∈ joinSep sep ls) :
    x = sep ∨ ∃ l ∈ ls, x ∈ l := by
  induction ls with
  | nil => simp [joinSep] at h
  | cons l ls' ih =>
    cases ls' with
    | nil =>
      right
      exact ⟨l, List.mem_cons_self _ _, by simpa [joinSep] using h⟩
    | cons l2 ls'' =>
      simp only [joinSep, List.mem_append, List.mem_cons] at h
      rcases h with h | h | h
      · right
        exact ⟨l, List.mem_cons_self _ _, h⟩
      · left
        exact h
      · rcases ih (by simpa [joinSep] using h) with h1 | ⟨y, hy, hxy⟩
        · left
          exact h1
        · right
          exact ⟨y, List.mem_cons_of_mem _ hy, hxy⟩

theorem matchesEmailRegex_iff {s : GoStr} :
    matchesEmailRegex s = true ↔ EmailPatternSpec s := by
  constructor
  · intro h
    cases hsp : splitOn atSign s with
    | nil => exact absurd hsp (splitOn_ne_nil _ _)
    | cons p ps =>
      cases ps with
      | nil => simp [matchesEmailRegex, hsp] at h
      | cons q qs =>
        cases qs with
        | nil =>
          simp only [matchesEmailRegex, hsp, Bool.and_eq_true, Bool.not_eq_eq_eq_not,
            Bool.not_true, List.isEmpty_eq_false, List.all_eq_true] at h
          obtain ⟨⟨hne, hloc⟩, hdom⟩ := h
          obtain ⟨hs, -, -⟩ := splitOn_eq_pair.mp hsp
          refine ⟨p, splitOn dotChar q, hne, hloc, splitOn_ne_nil _ _, ?_, ?_⟩
          · intro l hl
            exact isLabel_iff.mp (List.all_eq_true.mp hdom l hl)
          · rw [hs, joinSep_splitOn]
        | cons r rs => simp [matchesEmailRegex, hsp] at h
  · rintro ⟨lcl, labels, hne, hloc, hlne, hlab, rfl⟩
    have hnotat_lcl : atSign ∉ lcl := fun hm => isLocalChar_ne_atSign (hloc _ hm) rfl
    have hnotdot : ∀ l ∈ labels, dotChar ∉ l := by
      intro l hl hm
      exact isLabelChar_ne_dotChar ((hlab l hl).2.2.1 _ hm) rfl
    have hnotat_dom : atSign ∉ joinSep dotChar labels := by
      intro hm
      rcases mem_joinSep hm with h1 | ⟨l, hl, hxl⟩
      · exact absurd h1 (by decide)
      · exact isLabelChar_ne_atSign ((hlab l hl).2.2.1 _ hxl) rfl
    have hsp : splitOn atSign (lcl ++ atSign :: joinSep dotChar labels) =
        [lcl, joinSep dotChar labels] :=
      splitOn_eq_pair.mpr ⟨rfl, hnotat_lcl, hnotat_dom⟩
    simp only [matchesEmailRegex, hsp, Bool.and_eq_true, Bool.not_eq_eq_eq_not,
      Bool.not_true, List.isEmpty_eq_false, List.all_eq_true]
    refine ⟨⟨hne, hloc⟩, ?_⟩
    unfold isValidDomain
    rw [splitOn_joinSep hlne hnotdot, List.all_eq_true]
    intro l hl
    exact isLabel_iff.mpr (hlab l hl)

/-- C5: isValidEmailFormat accepts exactly the strings matching the
structural pattern (non-empty local part from the allowed class, exactly
one at sign, dot-separated labels of 1 to 63 alphanumeric-with-internal-
hyphen characters, no leading or trailing dot) whose length is at most
254; with the nine concrete vectors the claim lists. -/
theorem claim_C5 :
    (∀ s, isValidEmailFormat s = true ↔ EmailPatternSpec s ∧ s.length ≤ 254) ∧
    isValidEmailFormat (strE "") = false ∧
    isValidEmailFormat (strE "invalid-email") = false ∧
    isValidEmailFormat (strE "@example.com") = false ∧
    isValidEmailFormat (strE "test@") = false ∧
    isValidEmailFormat (strE "test@.com") = false ∧
    isValidEmailFormat (strE "test@com.") = false ∧
    isValidEmailFormat (strE "test@example.com") = true ∧
    isValidEmailFormat (strE "user.name@domain.co.uk") = true ∧
    isValidEmailFormat (strE "user+tag@example.org") = true := by
  refine ⟨?_, by decide, by decide, by decide, by decide, by decide, by decide,
    by decide, by decide, by decide⟩
  intro s
  unfold isValidEmailFormat
  rw [Bool.and_eq_true, decide_eq_true_eq, matchesEmailRegex_iff]

/-- Witness for C5: the pattern decomposition exists for a concrete
accepted address. -/
theorem claim_C5_witness :
    EmailPatternSpec (strE "test@example.com") ∧ (strE "test@example.com").length ≤ 254 :=
  (claim_C5.1 _).mp (by decide)

theorem selectPrimary_cons (r : MXRec) (rs : List MXRec) :
    selectPrimary (r :: rs) = some (firstMinFrom r rs) := by
  suffices h : ∀ (l : List MXRec) (p : MXRec), List.foldl
      (fun acc mx =>
        match acc with
        | none => some mx
        | some p => if mx.pref < p.pref then some mx else some p)
      (some p) l = some (firstMinFrom p l) by
    simp only [selectPrimary, List.foldl_cons]
    exact h rs r
  intro l
  induction l with
  | nil => intro p; rfl
  | cons mx rest ih =>
    intro p
    simp only [List.foldl_cons, firstMinFrom]
    by_cases h : mx.pref < p.pref
    · rw [if_pos h, if_pos h, ih]
    · rw [if_neg h, if_neg h, ih]

theorem firstMinFrom_spec (rs : List MXRec) (p : MXRec) :
    (firstMinFrom p rs = p ∧ ∀ y ∈ rs, p.pref ≤ y.pref) ∨
    (∃ pre post, rs = pre ++ firstMinFrom p rs :: post ∧
      (firstMinFrom p rs).pref < p.pref ∧
      (∀ y ∈ pre, (firstMinFrom p rs).pref < y.pref) ∧
      (∀ y ∈ post, (firstMinFrom p rs).pref ≤ y.pref)) := by
  induction rs generalizing p with
  | nil => exact Or.inl ⟨rfl, by simp⟩
  | cons mx rest ih =>
    by_cases h : mx.pref < p.pref
    · rw [firstMinFrom, if_pos h]
      rcases ih mx with ⟨heq, hle⟩ | ⟨pre, post, hsplit, hlt, hpre, hpost⟩
      · right
        refine ⟨[], rest, by simp [heq], ?_, by simp, ?_⟩
        · rw [heq]; exact h
        · rw [heq]; exact hle
      · right
        refine ⟨mx :: pre, post, by rw [List.cons_append, ← hsplit], ?_, ?_, hpost⟩
        · exact Nat.lt_trans hlt h
        · intro y hy
          rcases List.mem_cons.mp hy with rfl | hy'
          · exact hlt
          · exact hpre y hy'
    · rw [firstMinFrom, if_neg h]
      rcases ih p with ⟨heq, hle⟩ | ⟨pre, post, hsplit, hlt, hpre, hpost⟩
      · left
        refine ⟨heq, ?_⟩
        intro y hy
        rcases List.mem_cons.mp hy with rfl | hy'
        · omega
        · exact hle y hy'
      · right
        refine ⟨mx :: pre, post, by rw [List.cons_append, ← hsplit], hlt, ?_, hpost⟩
        intro y hy
        rcases List.mem_cons.mp hy with rfl | hy'
        · omega
        · exact hpre y hy'

/-- C6: getPrimaryMXServer selects, among the returned MX records, the
first-seen record of minimum preference and returns its host with a
single trailing dot stripped when present; a lookup error or an empty
record list yields the empty string. -/
theorem claim_C6 :
    getPrimaryMXServer none = [] ∧
    getPrimaryMXServer (some []) = [] ∧
    (∀ l c, stripTrailingDot (l ++ [c]) = if c = dotChar then l else l ++ [c]) ∧
    ∀ records, records ≠ [] →
      ∃ pre mx post, records = pre ++ mx :: post ∧
        getPrimaryMXServer (some records) = stripTrailingDot mx.host ∧
        (∀ y ∈ records, mx.pref ≤ y.pref) ∧
        (∀ y ∈ pre, mx.pref < y.pref) := by
  refine ⟨rfl, rfl, ?_, ?_⟩
  · intro l c
    unfold stripTrailingDot
    rw [List.getLast?_concat, List.dropLast_concat]
    simp only [Option.some.injEq]
  · intro records hne
    obtain ⟨r, rs, rfl⟩ := List.exists_cons_of_ne_nil hne
    have hval : getPrimaryMXServer (some (r :: rs)) =
        stripTrailingDot (firstMinFrom r rs).host := by
      simp [getPrimaryMXServer, selectPrimary_cons r rs]
    rcases firstMinFrom_spec rs r with ⟨heq, hle⟩ | ⟨pre, post, hsplit, hlt, hpre, hpost⟩
    · refine ⟨[], firstMinFrom r rs, rs, by simp [heq], hval, ?_, by simp⟩
      intro y hy
      rcases List.mem_cons.mp hy with rfl | hy'
      · rw [heq]
      · rw [heq]; exact hle y hy'
    · refine ⟨r :: pre, firstMinFrom r rs, post,
        by rw [List.cons_append, ← hsplit], hval, ?_, ?_⟩
      · intro y hy
        rcases List.mem_cons.mp hy with rfl | hy'
        · exact Nat.le_of_lt hlt
        · rw [hsplit] at hy'
          rcases List.mem_append.mp hy' with hy2 | hy2
          · exact Nat.le_of_lt (hpre y hy2)
          · rcases List.mem_cons.mp hy2 with rfl | hy3
            · exact Nat.le_refl _
            · exact hpost y hy3
      · intro y hy
        rcases List.mem_cons.mp hy with rfl | hy'
        · exact hlt
        · exact hpre y hy'

/-- Witness for C6 at a concrete record list whose minimum preference is
attained twice; the first-seen minimum (the second record) is selected and
its trailing dot stripped. -/
theorem claim_C6_witness :
    ∃ pre mx post, mxRecordsW = pre ++ mx :: post ∧
      getPrimaryMXServer (some mxRecordsW) = stripTrailingDot mx.host ∧
      (∀ y ∈ mxRecordsW, mx.pref ≤ y.pref) ∧
      (∀ y ∈ pre, mx.pref < y.pref) :=
  claim_C6.2.2.2 mxRecordsW (by decide)

/-- C1: for every probe behaviour and input, ValidateEmail is valid
exactly when all five stages succeed (format, MX, DNSSEC, non-empty
primary MX, STARTTLS); on success the reason is the success message, the
three evidence booleans are true and the primary MX server is non-empty;
on failure the reason is the first failing stage's reason. -/
theorem claim_C1 (env : ProbeEnv) (email : GoStr) :
    ((ValidateEmail env email).Valid = true ↔
      (isValidEmailFormat email = true ∧
       hasMXRecord (env.mxLookup (extractDomain (normalizeEmail email))) = true ∧
       hasDNSSEC (env.digOutput (extractDomain (normalizeEmail email))) = true ∧
       getPrimaryMXServer (env.mxLookup2 (extractDomain (normalizeEmail email))) ≠ [] ∧
       env.starttls (getPrimaryMXServer (env.mxLookup2 (extractDomain (normalizeEmail email)))) = true)) ∧
    ((ValidateEmail env email).Valid = true →
      (ValidateEmail env email).Reason = reasonValid ∧
      (ValidateEmail env email).HasMXRecord = true ∧
      (ValidateEmail env email).HasDNSSEC = true ∧
      (ValidateEmail env email).SupportsSTARTTLS = true ∧
      (ValidateEmail env email).PrimaryMXServer ≠ []) ∧
    ((ValidateEmail env email).Valid = false →
      (ValidateEmail env email).Reason = firstFailReason env email) := by
  cases hfmt : isValidEmailFormat email with
  | false => simp [ValidateEmail, ValidateEmailT, firstFailReason, hfmt]
  | true =>
    cases hmx : hasMXRecord (env.mxLookup (extractDomain (normalizeEmail email))) with
    | false => simp [ValidateEmail, ValidateEmailT, firstFailReason, hfmt, hmx]
    | true =>
      cases hdn : hasDNSSEC (env.digOutput (extractDomain (normalizeEmail email))) with
      | false => simp [ValidateEmail, ValidateEmailT, firstFailReason, hfmt, hmx, hdn]
      | true =>
        by_cases hpm : getPrimaryMXServer (env.mxLookup2 (extractDomain (normalizeEmail email))) = []
        · simp [ValidateEmail, ValidateEmailT, firstFailReason, hfmt, hmx, hdn, hpm]
        · cases htls : env.starttls
            (getPrimaryMXServer (env.mxLookup2 (extractDomain (normalizeEmail email)))) with
          | false =>
            simp [ValidateEmail, ValidateEmailT, firstFailReason, hfmt, hmx, hdn, hpm, htls]
          | true =>
            simp [ValidateEmail, ValidateEmailT, firstFailReason, hfmt, hmx, hdn, hpm, htls]

/-- Witness for C1: with an all-succeeding probe environment a concrete
well-formed address is declared valid. -/
theorem claim_C1_witness :
    (ValidateEmail envAllOK (strE "user@example.com")).Valid = true :=
  (claim_C1 envAllOK (strE "user@example.com")).1.mpr (by decide)

/-- C2: the pipeline short-circuits: a format-invalid input performs no
network probe at all and leaves Domain, HasMXRecord, HasDNSSEC,
PrimaryMXServer and SupportsSTARTTLS at their zero values; a format-valid
input whose MX check fails reports the MX reason, has performed exactly
the one MX lookup (no DNSSEC probe, no STARTTLS probe, no second MX
lookup), and leaves HasDNSSEC and SupportsSTARTTLS false. -/
theorem claim_C2 (env : ProbeEnv) (email : GoStr) :
    (isValidEmailFormat email = false →
      (ValidateEmailT env email).2 = [] ∧
      (ValidateEmailT env email).1.Domain = [] ∧
      (ValidateEmailT env email).1.HasMXRecord = false ∧
      (ValidateEmailT env email).1.HasDNSSEC = false ∧
      (ValidateEmailT env email).1.PrimaryMXServer = [] ∧
      (ValidateEmailT env email).1.SupportsSTARTTLS = false) ∧
    (isValidEmailFormat email = true →
      hasMXRecord (env.mxLookup (extractDomain (normalizeEmail email))) = false →
      (ValidateEmailT env email).1.Reason = reasonNoMX ∧
      (ValidateEmailT env email).2 = [Probe.mx (extractDomain (normalizeEmail email))] ∧
      (ValidateEmailT env email).1.HasDNSSEC = false ∧
      (ValidateEmailT env email).1.SupportsSTARTTLS = false) := by
  constructor
  · intro h
    simp [ValidateEmailT, h]
  · intro hf hmx
    simp [ValidateEmailT, hf, hmx]

/-- Witness for C2: a malformed input probes nothing, and a well-formed
input with failing MX lookup stops after that single lookup. -/
theorem claim_C2_witness :
    ((ValidateEmailT envNoMX (strE "not an email")).2 = [] ∧
      (ValidateEmailT envNoMX (strE "not an email")).1.Domain = [] ∧
      (ValidateEmailT envNoMX (strE "not an email")).1.HasMXRecord = false ∧
      (ValidateEmailT envNoMX (strE "not an email")).1.HasDNSSEC = false ∧
      (ValidateEmailT envNoMX (strE "not an email")).1.PrimaryMXServer = [] ∧
      (ValidateEmailT envNoMX (strE "not an email")).1.SupportsSTARTTLS = false) ∧
    ((ValidateEmailT envNoMX (strE "test@example.com")).1.Reason = reasonNoMX ∧
      (ValidateEmailT envNoMX (strE "test@example.com")).2 =
        [Probe.mx (extractDomain (normalizeEmail (strE "test@example.com")))] ∧
      (ValidateEmailT envNoMX (strE "test@example.com")).1.HasDNSSEC = false ∧
      (ValidateEmailT envNoMX (strE "test@example.com")).1.SupportsSTARTTLS = false) :=
  ⟨(claim_C2 envNoMX (strE "not an email")).1 (by decide),
   (claim_C2 envNoMX (strE "test@example.com")).2 (by decide) (by decide)⟩

theorem map_eq_self_of_fixed {f : Nat → Nat} {s : GoStr} (h : ∀ c ∈ s, f c = c) :
    s.map f = s := by
  induction s with
  | nil => rfl
  | cons c rest ih =>
    simp only [List.map_cons, h c (List.mem_cons_self _ _), List.cons.injEq, true_and]
    exact ih (fun x hx => h x (List.mem_cons_of_mem _ hx))

theorem takeWhile_eq_self_of_all {p : Nat → Bool} {s : GoStr}
    (h : ∀ c ∈ s, p c = true) : s.takeWhile p = s := by
  induction s with
  | nil => rfl
  | cons c rest ih =>
    rw [List.takeWhile_cons, h c (List.mem_cons_self _ _)]
    simp only [if_true, List.cons.injEq, true_and]
    exact ih (fun x hx => h x (List.mem_cons_of_mem _ hx))

theorem isLocalChar_not_space {n : Nat} (h : isLocalChar n = true) : goIsSpace n = false := by
  simp only [isLocalChar, isAlnum, isAsciiAlpha, isAsciiDigit, Bool.or_eq_true,
    decide_eq_true_eq] at h
  simp only [goIsSpace, decide_eq_false_iff_not]
  omega

theorem isLabelChar_not_space {n : Nat} (h : isLabelChar n = true) : goIsSpace n = false := by
  simp only [isLabelChar, isAlnum, isAsciiAlpha, isAsciiDigit, Bool.or_eq_true,
    decide_eq_true_eq] at h
  simp only [goIsSpace, decide_eq_false_iff_not]
  omega

theorem isValidDomain_ne_nil {d : GoStr} (h : isValidDomain d = true) : d ≠ [] := by
  intro hd
  subst hd
  exact absurd h (by decide)

theorem mem_of_validDomain {d : GoStr} (h : isValidDomain d = true) :
    ∀ c ∈ d, isLabelChar c = true ∨ c = dotChar := by
  intro c hc
  rw [← joinSep_splitOn dotChar d] at hc
  rcases mem_joinSep hc with h1 | ⟨l, hl, hxl⟩
  · exact Or.inr h1
  · have hlab := List.all_eq_true.mp (by simpa [isValidDomain] using h) l hl
    exact Or.inl ((isLabel_iff.mp hlab).2.2.1 c hxl)

/-- C9: for every address accepted by isValidEmailFormat, the domain
extracted from the normalized address is non-empty, so the pipeline's
empty-domain path is unreachable once the format check has passed. -/
theorem claim_C9 (email : GoStr) (h : isValidEmailFormat email = true) :
    extractDomain (normalizeEmail email) ≠ [] := by
  have hm : matchesEmailRegex email = true := by
    have h2 := h
    rw [isValidEmailFormat, Bool.and_eq_true] at h2
    exact h2.1
  obtain ⟨lcl, labels, hne, hloc, hlne, hlab, heq⟩ := matchesEmailRegex_iff.mp hm
  have hdchar : ∀ c ∈ joinSep dotChar labels, isLabelChar c = true ∨ c = dotChar := by
    intro c hc
    rcases mem_joinSep hc with h1 | ⟨l, hl, hxl⟩
    · exact Or.inr h1
    · exact Or.inl ((hlab l hl).2.2.1 c hxl)
  have hdne : joinSep dotChar labels ≠ [] := by
    cases labels with
    | nil => exact absurd rfl hlne
    | cons l ls =>
      cases ls with
      | nil =>
        have h1 := (hlab l (List.mem_cons_self _ _)).1
        simp only [joinSep]
        intro h0
        rw [h0] at h1
        simp at h1
      | cons l2 ls' => simp [joinSep]
  have hnsE : ∀ c ∈ email, goIsSpace c = false := by
    intro c hc
    rw [heq] at hc
    rcases List.mem_append.mp hc with h1 | h1
    · exact isLocalChar_not_space (hloc c h1)
    · rcases List.mem_cons.mp h1 with rfl | h2
      · decide
      · rcases hdchar c h2 with h3 | rfl
        · exact isLabelChar_not_space h3
        · decide
  have hmapeq : email.map goToLower =
      lcl.map goToLower ++ atSign :: (joinSep dotChar labels).map goToLower := by
    rw [heq, List.map_append, List.map_cons,
      show goToLower atSign = atSign from by decide]
  have hnl : atSign ∉ lcl.map goToLower := by
    intro hm2
    obtain ⟨a, ha, hfa⟩ := List.mem_map.mp hm2
    have ha3 : a = atSign := goToLower_eq_atSign.mp hfa
    subst ha3
    exact absurd (hloc _ ha) (by decide)
  have hnd : atSign ∉ (joinSep dotChar labels).map goToLower := by
    intro hm2
    obtain ⟨a, ha, hfa⟩ := List.mem_map.mp hm2
    have ha4 : a = atSign := goToLower_eq_atSign.mp hfa
    subst ha4
    rcases hdchar _ ha with h3 | h3
    · exact absurd h3 (by decide)
    · exact absurd h3 (by decide)
  have hsplitT : splitOn atSign (email.map goToLower) =
      [lcl.map goToLower, (joinSep dotChar labels).map goToLower] := by
    rw [hmapeq]
    exact splitOn_eq_pair.mpr ⟨rfl, hnl, hnd⟩
  have hnorm0 : normalizeEmail email =
      (if (joinSep dotChar labels).map goToLower = strE "gmail.com" ∨
          (joinSep dotChar labels).map goToLower = strE "googlemail.com" then
        truncAtPlus (removeDots (lcl.map goToLower)) ++ atSign :: strE "gmail.com"
      else lcl.map goToLower ++ atSign :: (joinSep dotChar labels).map goToLower) := by
    simp only [normalizeEmail, trimSpace_eq_self hnsE, hsplitT]
  by_cases hg : (joinSep dotChar labels).map goToLower = strE "gmail.com" ∨
      (joinSep dotChar labels).map goToLower = strE "googlemail.com"
  · rw [hnorm0, if_pos hg]
    have hg2 : atSign ∉ truncAtPlus (removeDots (lcl.map goToLower)) := by
      intro hm2
      exact hnl (List.mem_of_mem_filter ((List.takeWhile_sublist _).subset hm2))
    have hsplit2 : splitOn atSign
        (truncAtPlus (removeDots (lcl.map goToLower)) ++ atSign :: strE "gmail.com") =
        [truncAtPlus (removeDots (lcl.map goToLower)), strE "gmail.com"] :=
      splitOn_eq_pair.mpr ⟨rfl, hg2, by decide⟩
    simp only [extractDomain, hsplit2]
    decide
  · rw [hnorm0, if_neg hg]
    have hsplit3 : splitOn atSign
        (lcl.map goToLower ++ atSign :: (joinSep dotChar labels).map goToLower) =
        [lcl.map goToLower, (joinSep dotChar labels).map goToLower] :=
      splitOn_eq_pair.mpr ⟨rfl, hnl, hnd⟩
    simp only [extractDomain, hsplit3]
    have hnsd : ∀ c ∈ (joinSep dotChar labels).map goToLower, goIsSpace c = false := by
      intro c hc
      obtain ⟨a, ha, rfl⟩ := List.mem_map.mp hc
      rw [goIsSpace_goToLower]
      rcases hdchar a ha with h3 | rfl
      · exact isLabelChar_not_space h3
      · decide
    rw [trimSpace_eq_self hnsd]
    intro h0
    rw [List.map_eq_nil_iff, List.map_eq_nil_iff] at h0
    exact hdne h0

/-- Witness for C9 at a concrete accepted address. -/
theorem claim_C9_witness : extractDomain (normalizeEmail (strE "test@example.com")) ≠ [] :=
  claim_C9 _ (by decide)

theorem normalizeEmail_clean {t : GoStr} (hns : ∀ c ∈ t, goIsSpace c = false)
    (hfix : ∀ c ∈ t, goToLower c = c) :
    normalizeEmail t =
      match splitOn atSign t with
      | [lcl, domain] =>
        if domain = strE "gmail.com" ∨ domain = strE "googlemail.com" then
          truncAtPlus (removeDots lcl) ++ atSign :: strE "gmail.com"
        else lcl ++ atSign :: domain
      | _ => t := by
  have h1 : trimSpace t = t := trimSpace_eq_self hns
  have h2 : t.map goToLower = t := map_eq_self_of_fixed hfix
  simp only [normalizeEmail, h1, h2]

theorem normalizeEmail_idem_clean {t : GoStr} (hns : ∀ c ∈ t, goIsSpace c = false)
    (hfix : ∀ c ∈ t, goToLower c = c) :
    normalizeEmail (normalizeEmail t) = normalizeEmail t := by
  rw [normalizeEmail_clean hns hfix]
  cases hsp : splitOn atSign t with
  | nil => exact absurd hsp (splitOn_ne_nil _ _)
  | cons p ps =>
    cases ps with
    | nil =>
      rw [normalizeEmail_clean hns hfix, hsp]
    | cons q qs =>
      cases qs with
      | cons r rs =>
        rw [normalizeEmail_clean hns hfix, hsp]
      | nil =>
        obtain ⟨ht, hna, hnb⟩ := splitOn_eq_pair.mp hsp
        by_cases hg : q = strE "gmail.com" ∨ q = strE "googlemail.com"
        · show normalizeEmail
            (if q = strE "gmail.com" ∨ q = strE "googlemail.com" then
              truncAtPlus (removeDots p) ++ atSign :: strE "gmail.com"
            else p ++ atSign :: q) = _
          rw [if_pos hg]
          have hsubp : ∀ c ∈ truncAtPlus (removeDots p), c ∈ p := fun c hc =>
            List.mem_of_mem_filter ((List.takeWhile_sublist _).subset hc)
          have hpt : ∀ c ∈ p, c ∈ t := by
            intro c hc
            rw [ht]
            exact List.mem_append_left _ hc
          have htail : ∀ c ∈ (atSign :: strE "gmail.com" : GoStr), goIsSpace c = false ∧
              goToLower c = c := by decide
          have hns2 : ∀ c ∈ truncAtPlus (removeDots p) ++ atSign :: strE "gmail.com",
              goIsSpace c = false := by
            intro c hc
            rcases List.mem_append.mp hc with h1 | h1
            · exact hns c (hpt c (hsubp c h1))
            · exact (htail c h1).1
          have hfix2 : ∀ c ∈ truncAtPlus (removeDots p) ++ atSign :: strE "gmail.com",
              goToLower c = c := by
            intro c hc
            rcases List.mem_append.mp hc with h1 | h1
            · exact hfix c (hpt c (hsubp c h1))
            · exact (htail c h1).2
          have hnag : atSign ∉ truncAtPlus (removeDots p) := fun hm => hna (hsubp _ hm)
          have hsp2 : splitOn atSign
              (truncAtPlus (removeDots p) ++ atSign :: strE "gmail.com") =
              [truncAtPlus (removeDots p), strE "gmail.com"] :=
            splitOn_eq_pair.mpr ⟨rfl, hnag, by decide⟩
          rw [normalizeEmail_clean hns2 hfix2, hsp2]
          show (if strE "gmail.com" = strE "gmail.com" ∨
              strE "gmail.com" = strE "googlemail.com" then
            truncAtPlus (removeDots (truncAtPlus (removeDots p))) ++
              atSign :: strE "gmail.com"
          else truncAtPlus (removeDots p) ++ atSign :: strE "gmail.com") = _
          rw [if_pos (Or.inl rfl)]
          have hrd : removeDots (truncAtPlus (removeDots p)) = truncAtPlus (removeDots p) :=
            List.filter_eq_self.mpr (fun c hc =>
              (List.mem_filter.mp ((List.takeWhile_sublist _).subset hc)).2)
          have hrp : truncAtPlus (truncAtPlus (removeDots p)) = truncAtPlus (removeDots p) := by
            unfold truncAtPlus
            apply takeWhile_eq_self_of_all
            intro c hc
            have h3 := List.mem_takeWhile_imp hc
            simpa using h3
          rw [hrd, hrp]
          show _ = (if q = strE "gmail.com" ∨ q = strE "googlemail.com" then
              truncAtPlus (removeDots p) ++ atSign :: strE "gmail.com"
            else p ++ atSign :: q)
          rw [if_pos hg]
        · show normalizeEmail
            (if q = strE "gmail.com" ∨ q = strE "googlemail.com" then
              truncAtPlus (removeDots p) ++ atSign :: strE "gmail.com"
            else p ++ atSign :: q) = _
          rw [if_neg hg, ← ht, normalizeEmail_clean hns hfix, hsp]

/-- C3 fails on the code as stated: dot deletion in the Gmail local part
can expose leading white space, which only the second normalization then
trims. -/
theorem claim_C3_counterexample :
    normalizeEmail (normalizeEmail (strE ". a@gmail.com")) ≠
      normalizeEmail (strE ". a@gmail.com") := by decide

/-- C3 amended: normalization is idempotent on every address containing no
white-space character (in particular on every format-valid address):
normalizeEmail (normalizeEmail A) = normalizeEmail A. -/
theorem claim_C3_amended (A : GoStr) (h : ∀ c ∈ A, goIsSpace c = false) :
    normalizeEmail (normalizeEmail A) = normalizeEmail A := by
  have htA : trimSpace A = A := trimSpace_eq_self h
  have hns : ∀ c ∈ A.map goToLower, goIsSpace c = false := by
    intro c hc
    obtain ⟨a, ha, rfl⟩ := List.mem_map.mp hc
    rw [goIsSpace_goToLower]
    exact h a ha
  have hfix : ∀ c ∈ A.map goToLower, goToLower c = c := by
    intro c hc
    obtain ⟨a, ha, rfl⟩ := List.mem_map.mp hc
    exact goToLower_goToLower a
  have hnrm : normalizeEmail A = normalizeEmail (A.map goToLower) := by
    simp only [normalizeEmail, htA, trimSpace_eq_self hns, map_eq_self_of_fixed hfix]
  rw [hnrm]
  exact normalizeEmail_idem_clean hns hfix

/-- Witness for the amended C3 at a concrete white-space-free Gmail-class
address. -/
theorem claim_C3_witness :
    normalizeEmail (normalizeEmail (strE "Te.st+x@GoogleMail.Com")) =
      normalizeEmail (strE "Te.st+x@GoogleMail.Com") :=
  claim_C3_amended _ (by decide)
